import Mathlib

/-!
# Verification of the `liegr` Lie-algebra core (`src/liegr.py`)

This file shallowly embeds the Lie-algebra machinery of the `liegr`
repository and proves (or refutes) the frozen claims about it.

Embedded pieces of `src/liegr.py`:

* `liegr.__init__` (lines 44, 60-67): the dimension `N = n*(n-1)/2`, the
  closed-form index map `I ↦ (i, j)` and the generator matrices `T`;
* `liegr.__init__` (lines 73-101): the structure constants `gamma`;
* `liegr._exp_grad` (lines 190-204): the registered custom gradient of the
  matrix exponential (a chain of `einsum`s);
* `liegr.expm` (lines 211-221): the algebra-to-group exponential;
* `OrthoOptimizer.get_grads` / `OrthoOptimizer.apply_grads` (lines 407-429):
  the tangent projection and the Cayley update.

Conventions of the embedding:

* numpy/TensorFlow float arrays are embedded as exact matrices: over `ℤ`
  (the generator and structure-constant entries are integers `-1`, `0`, `1`),
  over `ℚ` for linear-algebra statements, and over `ℝ` where the matrix
  exponential and inverse are involved;
* every batched TensorFlow `einsum` in the source carries the batch index
  `i` through every factor pointwise, so the embedding is per batch item;
* `tf.matrix_inverse` is embedded as Mathlib's `Matrix.inv`
  (`A⁻¹ = 0` when `A.det` is not a unit — the source has no singularity
  handling of its own, see the claims about `apply_grads`);
* `tf.linalg.expm` is embedded as `NormedSpace.exp ℝ`;
* Python's `%` on integers with a positive modulus is `Int.emod`.
-/

open scoped Matrix BigOperators

namespace LieGr

/-- `self.N = int(n*(n-1)/2.)` (line 44): the dimension of the `so(n)`
Lie algebra.  For natural `n` the float arithmetic is exact, so this is
plain natural division. -/
def Nalg (n : ℕ) : ℕ := n * (n - 1) / 2

/-- The quantity `i*(2*n-i-1)/2` appearing (as float arithmetic, exact on
these values) in lines 63, 77, 81 and, as `int(i*(n - 0.5*(i+1)))`, in
lines 86, 90, 94, 98 of the source: the number of upper-triangle index pairs
strictly above row `i`, i.e. the first linear index belonging to row `i`. -/
def rowBase (n i : ℕ) : ℕ := i * (2 * n - i - 1) / 2

/-- The row of the `I`-th generator.  The source (lines 62, 76, 80)
computes it by the closed form
`int(math.ceil(-0.5 + n - sqrt((n-0.5)**2 - 2*(I+1))) - 1.)`, which by the
source's own comment (lines 53-55) finds "the highest row for which the sum
of elements of all preceding rows is still less than the first index":
the greatest `i` with `rowBase n i ≤ I`.  Theorem `rowOf_eq_closedForm`
below proves this definition equal to the exact-real closed form. -/
def rowOf (n I : ℕ) : ℕ := Nat.findGreatest (fun i => rowBase n i ≤ I) n

/-- The column of the `I`-th generator: `dist = (I+1.) - i*(2*n-i-1)/2`,
`j = int(i+dist)` (lines 63-64, 77-78, 81-82). -/
def colOf (n I : ℕ) : ℕ := rowOf n I + (I + 1 - rowBase n (rowOf n I))

lemma rowBase_zero (n : ℕ) : rowBase n 0 = 0 := by simp [rowBase]

lemma rowBase_succ {n i : ℕ} (h : i < n) :
    rowBase n (i + 1) = rowBase n i + (n - 1 - i) := by
  obtain ⟨k, rfl⟩ : ∃ k, n = i + 1 + k := ⟨n - i - 1, by omega⟩
  unfold rowBase
  have e1 : 2 * (i + 1 + k) - (i + 1) - 1 = i + 2 * k := by omega
  have e2 : 2 * (i + 1 + k) - i - 1 = i + 2 * k + 1 := by omega
  have e3 : i + 1 + k - 1 - i = k := by omega
  rw [e1, e2, e3]
  have h4 : (i + 1) * (i + 2 * k) = i * (i + 2 * k + 1) + 2 * k := by ring
  rw [h4, Nat.add_mul_div_left _ _ (by norm_num : 0 < 2)]

lemma rowBase_n_sub_one {n : ℕ} (h : 1 ≤ n) : rowBase n (n - 1) = Nalg n := by
  unfold rowBase Nalg
  congr 1
  have : 2 * n - (n - 1) - 1 = n := by omega
  rw [this, Nat.mul_comm]

lemma rowBase_n (n : ℕ) : rowBase n n = Nalg n := by
  unfold rowBase Nalg
  congr 1
  have : 2 * n - n - 1 = n - 1 := by omega
  rw [this]

lemma rowBase_mono {n i j : ℕ} (hij : i ≤ j) (hjn : j ≤ n) :
    rowBase n i ≤ rowBase n j := by
  induction j with
  | zero =>
    have hi0 : i = 0 := by omega
    subst hi0; exact le_refl _
  | succ k ih =>
    rcases Nat.lt_or_ge i (k + 1) with hlt | hge
    · have h1 : rowBase n i ≤ rowBase n k := ih (by omega) (by omega)
      have h2 := rowBase_succ (show k < n by omega)
      omega
    · have hik : i = k + 1 := by omega
      subst hik; exact le_refl _

/-- Characterisation of the index map on valid indices `I < N`:
the row `r` satisfies `rowBase n r ≤ I < rowBase n (r+1)` and `r + 1 < n`. -/
lemma rowOf_spec {n I : ℕ} (h : I < Nalg n) :
    rowBase n (rowOf n I) ≤ I ∧ I < rowBase n (rowOf n I + 1) ∧ rowOf n I + 1 < n := by
  have hn2 : 2 ≤ n := by
    by_contra hc
    interval_cases n <;> simp [Nalg] at h
  have hP0 : rowBase n 0 ≤ I := by simp [rowBase_zero]
  have hPr : rowBase n (rowOf n I) ≤ I :=
    Nat.findGreatest_spec (P := fun i => rowBase n i ≤ I) (m := 0) (Nat.zero_le n) hP0
  have hle : rowOf n I ≤ n := Nat.findGreatest_le n
  have hlt : rowOf n I < n - 1 := by
    rcases Nat.lt_or_ge (rowOf n I) (n - 1) with hlt | hge
    · exact hlt
    · exfalso
      have : Nalg n ≤ rowBase n (rowOf n I) := by
        calc Nalg n = rowBase n (n - 1) := (rowBase_n_sub_one (by omega)).symm
          _ ≤ rowBase n (rowOf n I) := rowBase_mono hge hle
      omega
  refine ⟨hPr, ?_, by omega⟩
  have hgr : ¬ (rowBase n (rowOf n I + 1) ≤ I) :=
    Nat.findGreatest_is_greatest (P := fun i => rowBase n i ≤ I)
      (Nat.lt_succ_self (rowOf n I)) (by omega)
  omega

/-- On valid indices the pair is strictly upper triangular: `i < j < n`. -/
lemma pair_lt {n I : ℕ} (h : I < Nalg n) :
    rowOf n I < colOf n I ∧ colOf n I < n := by
  obtain ⟨h1, h2, h3⟩ := rowOf_spec h
  have hrec : rowBase n (rowOf n I + 1) = rowBase n (rowOf n I) + (n - 1 - rowOf n I) :=
    rowBase_succ (by omega)
  unfold colOf
  omega

/-- The inverse direction: starting from a row `i` and an offset `d` inside
that row, the index map recovers `(i, i + d + 1)`. -/
lemma rowOf_colOf_of_base {n i d : ℕ} (hi : i + 1 < n) (hd : d < n - 1 - i) :
    rowBase n i + d < Nalg n ∧
    rowOf n (rowBase n i + d) = i ∧ colOf n (rowBase n i + d) = i + d + 1 := by
  set I := rowBase n i + d with hI
  have hrec : rowBase n (i + 1) = rowBase n i + (n - 1 - i) := rowBase_succ (by omega)
  have hIlt : I < rowBase n (i + 1) := by omega
  have hIN : I < Nalg n := by
    have : rowBase n (i + 1) ≤ rowBase n n := rowBase_mono (by omega) (le_refl n)
    rw [rowBase_n] at this
    omega
  have hge : i ≤ rowOf n I :=
    Nat.le_findGreatest (P := fun r => rowBase n r ≤ I) (by omega) (by omega)
  have hro : rowOf n I = i := by
    rcases Nat.lt_or_ge i (rowOf n I) with hlt | _
    · exfalso
      have hPr : rowBase n (rowOf n I) ≤ I :=
        Nat.findGreatest_spec (P := fun r => rowBase n r ≤ I) (m := 0)
          (Nat.zero_le n) (by simp [rowBase_zero])
      have hle : rowOf n I ≤ n := Nat.findGreatest_le n
      have : rowBase n (i + 1) ≤ rowBase n (rowOf n I) := rowBase_mono (by omega) hle
      omega
    · omega
  refine ⟨hIN, hro, ?_⟩
  unfold colOf
  rw [hro]
  omega

/-- Injectivity data: `I` is recovered from its pair. -/
lemma index_of_pair {n I : ℕ} (h : I < Nalg n) :
    I = rowBase n (rowOf n I) + (colOf n I - rowOf n I - 1) := by
  obtain ⟨h1, _, _⟩ := rowOf_spec h
  unfold colOf
  omega

/-- The index map is injective on `I < N`. -/
lemma pair_injective {n I J : ℕ} (hI : I < Nalg n) (hJ : J < Nalg n)
    (hrow : rowOf n I = rowOf n J) (hcol : colOf n I = colOf n J) : I = J := by
  have h1 := index_of_pair hI
  have h2 := index_of_pair hJ
  rw [hrow, hcol] at h1
  omega

/-- The index map is surjective onto the strict upper triangle. -/
lemma pair_surjective {n i j : ℕ} (hij : i < j) (hjn : j < n) :
    ∃ I, I < Nalg n ∧ rowOf n I = i ∧ colOf n I = j := by
  obtain ⟨hN, hr, hc⟩ := rowOf_colOf_of_base (n := n) (i := i) (d := j - i - 1)
    (by omega) (by omega)
  exact ⟨rowBase n i + (j - i - 1), hN, hr, by rw [hc]; omega⟩

lemma two_mul_rowBase {n i : ℕ} (h : i ≤ n) :
    2 * rowBase n i = i * (2 * n - i - 1) := by
  induction i with
  | zero => simp [rowBase_zero]
  | succ m ih =>
    have hm : m < n := by omega
    rw [rowBase_succ hm, Nat.mul_add, ih (by omega)]
    obtain ⟨k, rfl⟩ : ∃ k, n = m + 1 + k := ⟨n - m - 1, by omega⟩
    have e1 : 2 * (m + 1 + k) - m - 1 = m + 2 * k + 1 := by omega
    have e2 : 2 * (m + 1 + k) - (m + 1) - 1 = m + 2 * k := by omega
    have e3 : m + 1 + k - 1 - m = k := by omega
    rw [e1, e2, e3]
    ring

/-- The real-quadratic identity behind the source's closed form:
`(n - 1/2)² - 2·rowBase n i = (n - 1/2 - i)²`. -/
lemma rowBase_real_key {n i : ℕ} (h : i ≤ n) (hn : 1 ≤ n) :
    ((n : ℝ) - 1 / 2) ^ 2 - 2 * (rowBase n i : ℝ) = ((n : ℝ) - 1 / 2 - (i : ℝ)) ^ 2 := by
  have h2 : 2 * rowBase n i = i * (i + 2 * (n - i) - 1) := by
    rw [two_mul_rowBase h]
    congr 1
    omega
  obtain ⟨k, rfl⟩ : ∃ k, n = i + k := ⟨n - i, by omega⟩
  have e1 : i + k - i = k := by omega
  rw [e1] at h2
  have hc : 2 * ((rowBase (i + k) i : ℕ) : ℝ) = (i : ℝ) * ((i : ℝ) + 2 * (k : ℝ) - 1) := by
    rcases Nat.eq_zero_or_pos i with hi0 | hip
    · subst hi0; simp [rowBase_zero]
    · have e4 : i + 2 * k - 1 = i - 1 + 2 * k := by omega
      rw [e4] at h2
      have := congrArg (fun m : ℕ => (m : ℝ)) h2
      push_cast [Nat.cast_sub hip] at this
      rw [this]
      ring
  push_cast
  push_cast at hc
  linear_combination (-1 : ℝ) * hc

/-- The source's closed-form row computation (lines 62, 76, 80),
`int(math.ceil(-0.5 + n - sqrt((n-0.5)**2 - 2*(I+1))) - 1.)`, agrees with
`rowOf` on every valid index: the ceiling/sqrt formula inverts the
quadratic `rowBase` exactly. -/
theorem rowOf_eq_closedForm {n I : ℕ} (h : I < Nalg n) :
    (⌈-(1 / 2 : ℝ) + (n : ℝ) - Real.sqrt (((n : ℝ) - 1 / 2) ^ 2 - 2 * ((I : ℝ) + 1))⌉ - 1 : ℤ)
      = rowOf n I := by
  obtain ⟨h1, h2, h3⟩ := rowOf_spec h
  set r := rowOf n I with hr
  have hn : 2 ≤ n := by omega
  set g : ℝ := (n : ℝ) - 1 / 2 with hg
  have key1 : g ^ 2 - 2 * (rowBase n r : ℝ) = (g - (r : ℝ)) ^ 2 :=
    rowBase_real_key (by omega) (by omega)
  have key2 : g ^ 2 - 2 * (rowBase n (r + 1) : ℝ) = (g - ((r : ℝ) + 1)) ^ 2 := by
    have := rowBase_real_key (n := n) (i := r + 1) (by omega) (by omega)
    push_cast at this
    convert this using 3
  have hrg : (r : ℝ) + 1 ≤ g - 1 / 2 := by
    have : (r : ℝ) + 2 ≤ (n : ℝ) := by exact_mod_cast Nat.succ_le_of_lt h3
    rw [hg]; linarith
  have hm1 : (rowBase n r : ℝ) < (I : ℝ) + 1 := by
    have : (rowBase n r : ℝ) ≤ (I : ℝ) := by exact_mod_cast h1
    linarith
  have hm2 : (I : ℝ) + 1 ≤ (rowBase n (r + 1) : ℝ) := by exact_mod_cast h2
  set s : ℝ := Real.sqrt (g ^ 2 - 2 * ((I : ℝ) + 1)) with hs
  clear_value g s
  have hr1 : (0 : ℝ) ≤ g - ((r : ℝ) + 1) := by linarith [hrg]
  have hr0 : (0 : ℝ) ≤ g - (r : ℝ) := by linarith [hrg]
  have hlow : g - ((r : ℝ) + 1) ≤ s := by
    have hle : (g - ((r : ℝ) + 1)) ^ 2 ≤ g ^ 2 - 2 * ((I : ℝ) + 1) := by
      rw [← key2]; linarith
    have h5 := Real.sqrt_le_sqrt hle
    rw [Real.sqrt_sq hr1] at h5
    rw [hs]
    exact h5
  have hhigh : s < g - (r : ℝ) := by
    have hlt : g ^ 2 - 2 * ((I : ℝ) + 1) < (g - (r : ℝ)) ^ 2 := by
      rw [← key1]; linarith
    have hnn : (0 : ℝ) ≤ g ^ 2 - 2 * ((I : ℝ) + 1) := by
      have h6 : (0 : ℝ) ≤ (g - ((r : ℝ) + 1)) ^ 2 := sq_nonneg _
      linarith [key2, hm2]
    have h7 := Real.sqrt_lt_sqrt hnn hlt
    rw [Real.sqrt_sq hr0] at h7
    rw [hs]
    exact h7
  have hceil : ⌈-(1 / 2 : ℝ) + (n : ℝ) - s⌉ = (r : ℤ) + 1 := by
    rw [Int.ceil_eq_iff]
    constructor
    · push_cast
      have : -(1 / 2 : ℝ) + (n : ℝ) = g := by rw [hg]; ring
      rw [this]
      linarith
    · push_cast
      have : -(1 / 2 : ℝ) + (n : ℝ) = g := by rw [hg]; ring
      rw [this]
      linarith
  rw [hceil]
  simp

/-!
## The generators `T` and the structure constants `gamma`

Lines 60-67 of the source build, for each `I < N`, the matrix with entry
`(-1.)**(i+j+1.)` at `(i, j)` and its negation at `(j, i)` (where
`i = rowOf n I`, `j = colOf n I`), all other entries zero.  The float
powers are exactly `±1`, so the embedding is over `ℤ`.
-/

/-- The generator matrices `self.T` (lines 60-67). -/
def Tmat (n I : ℕ) : Matrix (Fin n) (Fin n) ℤ :=
  Matrix.of fun a b =>
    if (a : ℕ) = rowOf n I ∧ (b : ℕ) = colOf n I then (-1) ^ (rowOf n I + colOf n I + 1)
    else if (a : ℕ) = colOf n I ∧ (b : ℕ) = rowOf n I then -(-1) ^ (rowOf n I + colOf n I + 1)
    else 0

/-- Python's `% self.N` on an integer, with a positive modulus, returns a
value in `[0, N)`: this is `Int.emod`, converted back to `ℕ`.  Used by the
`K` computations of lines 86, 90, 94, 98. -/
def modN (n : ℕ) (a : ℤ) : ℕ := (a % (Nalg n : ℤ)).toNat

/-- The loop body of lines 75-100, computing the entry `gamma[I, J, K]` for
`J > I`.  The source is a sequence of four `if` blocks (after the shared
`continue` of lines 83-84) writing into a zero-initialised array; the four
conditions are pairwise exclusive because `rowOf < colOf` on valid indices,
so the first-match chain below is the same function.  Each branch's `K` is
the source's `(… + int(x*(n - 0.5*(x+1))) - 1) % N`, where
`int(x*(n - 0.5*(x+1))) = rowBase n x` exactly. -/
def gammaPos (n I J K : ℕ) : ℤ :=
  if rowOf n I = rowOf n J ∧ colOf n I = colOf n J then 0
  else if rowOf n I = rowOf n J then
    (if K = modN n ((colOf n J : ℤ) - (colOf n I : ℤ) + (rowBase n (colOf n I) : ℤ) - 1)
      then 1 else 0)
  else if colOf n I = colOf n J then
    (if K = modN n ((rowOf n J : ℤ) - (rowOf n I : ℤ) + (rowBase n (rowOf n I) : ℤ) - 1)
      then 1 else 0)
  else if colOf n I = rowOf n J then
    (if K = modN n ((colOf n J : ℤ) - (rowOf n I : ℤ) + (rowBase n (rowOf n I) : ℤ) - 1)
      then -1 else 0)
  else if rowOf n I = colOf n J then
    (if K = modN n ((rowOf n J : ℤ) - (colOf n I : ℤ) + (rowBase n (colOf n I) : ℤ) - 1)
      then -1 else 0)
  else 0

/-- The structure constants `self.gamma` (lines 73-101): the loop ranges
over `J > I` and writes `gamma[I,J,K] = v`, `gamma[J,I,K] = -v`; the
diagonal `I = J` is never written and stays `0`. -/
def gamma (n I J K : ℕ) : ℤ :=
  if I < J then gammaPos n I J K
  else if J < I then -gammaPos n J I K
  else 0

/-- The row index of generator `I`, bundled with its bound. -/
def pivotRow (n : ℕ) (I : Fin (Nalg n)) : Fin n :=
  ⟨rowOf n I, lt_trans (pair_lt I.isLt).1 (pair_lt I.isLt).2⟩

/-- The column index of generator `I`, bundled with its bound. -/
def pivotCol (n : ℕ) (I : Fin (Nalg n)) : Fin n :=
  ⟨colOf n I, (pair_lt I.isLt).2⟩

lemma Tmat_transpose {n I : ℕ} (h : I < Nalg n) : (Tmat n I)ᵀ = -(Tmat n I) := by
  have hne : rowOf n I ≠ colOf n I := ne_of_lt (pair_lt h).1
  ext a b
  simp only [Matrix.transpose_apply, Matrix.neg_apply, Tmat, Matrix.of_apply]
  by_cases har : (a : ℕ) = rowOf n I <;> by_cases hac : (a : ℕ) = colOf n I <;>
    by_cases hbr : (b : ℕ) = rowOf n I <;> by_cases hbc : (b : ℕ) = colOf n I <;>
    simp_all

/-- Generator entries vanish away from the two pivot positions. -/
lemma Tmat_apply_off {n I : ℕ} {a b : Fin n}
    (h1 : ¬((a : ℕ) = rowOf n I ∧ (b : ℕ) = colOf n I))
    (h2 : ¬((a : ℕ) = colOf n I ∧ (b : ℕ) = rowOf n I)) :
    Tmat n I a b = 0 := by
  simp only [Tmat, Matrix.of_apply, if_neg h1, if_neg h2]

lemma Tmat_apply_pivot {n : ℕ} (I : Fin (Nalg n)) :
    Tmat n I (pivotRow n I) (pivotCol n I) = (-1) ^ (rowOf n I + colOf n I + 1) := by
  simp [Tmat, pivotRow, pivotCol]

/-- At the pivot of `I`, every other generator `J` vanishes. -/
lemma Tmat_apply_pivot_ne {n : ℕ} (I J : Fin (Nalg n)) (hne : J ≠ I) :
    Tmat n J (pivotRow n I) (pivotCol n I) = 0 := by
  have hI := pair_lt I.isLt
  have hJ := pair_lt J.isLt
  apply Tmat_apply_off
  · rintro ⟨h1, h2⟩
    exact hne (Fin.ext (pair_injective J.isLt I.isLt h1.symm h2.symm))
  · rintro ⟨h1, h2⟩
    simp only [pivotRow, pivotCol] at h1 h2
    omega

/-- The generators over `ℚ` (the float array `self.T` is integer-valued;
linear-algebra statements are taken over the exact field `ℚ`). -/
def TmatQ (n : ℕ) (I : Fin (Nalg n)) : Matrix (Fin n) (Fin n) ℚ :=
  (Tmat n I).map (fun z => (z : ℚ))

lemma TmatQ_transpose {n : ℕ} (I : Fin (Nalg n)) : (TmatQ n I)ᵀ = -TmatQ n I := by
  ext a b
  have h : Tmat n (I : ℕ) b a = -(Tmat n (I : ℕ) a b) := by
    have h0 := Tmat_transpose I.isLt
    calc Tmat n (I : ℕ) b a = (Tmat n (I : ℕ))ᵀ a b := rfl
      _ = (-(Tmat n (I : ℕ))) a b := by rw [h0]
      _ = -(Tmat n (I : ℕ) a b) := rfl
  simp only [Matrix.transpose_apply, TmatQ, Matrix.map_apply, Matrix.neg_apply, h]
  push_cast
  ring

lemma TmatQ_apply_entry {n : ℕ} (I : Fin (Nalg n)) (a b : Fin n) :
    TmatQ n I a b = ((Tmat n (I : ℕ) a b : ℤ) : ℚ) := rfl

lemma TmatQ_linearIndependent (n : ℕ) : LinearIndependent ℚ (TmatQ n) := by
  rw [Fintype.linearIndependent_iff]
  intro g hg I
  have h := congrFun (congrFun hg (pivotRow n I)) (pivotCol n I)
  have h2 : ∑ J : Fin (Nalg n), g J * TmatQ n J (pivotRow n I) (pivotCol n I) = 0 := by
    simpa [Matrix.sum_apply] using h
  rw [Finset.sum_eq_single I] at h2
  · have hv : TmatQ n I (pivotRow n I) (pivotCol n I)
        = ((-1 : ℚ) ^ (rowOf n (I : ℕ) + colOf n (I : ℕ) + 1)) := by
      rw [TmatQ_apply_entry, Tmat_apply_pivot]
      push_cast
      ring
    rw [hv] at h2
    rcases mul_eq_zero.mp h2 with hg0 | hpow
    · exact hg0
    · exact absurd hpow (by positivity)
  · intro J _ hJ
    rw [TmatQ_apply_entry, Tmat_apply_pivot_ne I J hJ]
    simp
  · intro hI
    exact absurd (Finset.mem_univ I) hI

/-- The submodule of antisymmetric rational matrices (`so(n)` over `ℚ`). -/
def skewSubmodule (n : ℕ) : Submodule ℚ (Matrix (Fin n) (Fin n) ℚ) where
  carrier := {A | Aᵀ = -A}
  add_mem' := by
    intro A B hA hB
    simp only [Set.mem_setOf_eq] at *
    rw [Matrix.transpose_add, hA, hB, neg_add]
  zero_mem' := by simp
  smul_mem' := by
    intro c A hA
    simp only [Set.mem_setOf_eq] at *
    rw [Matrix.transpose_smul, hA, smul_neg]

/-- Every antisymmetric matrix is the explicit pivot-weighted combination
of the generators. -/
lemma skew_eq_sum {n : ℕ} {A : Matrix (Fin n) (Fin n) ℚ} (hA : Aᵀ = -A) :
    A = ∑ I : Fin (Nalg n),
      ((-1 : ℚ) ^ (rowOf n (I : ℕ) + colOf n (I : ℕ) + 1)
        * A (pivotRow n I) (pivotCol n I)) • TmatQ n I := by
  have hAanti : ∀ a b : Fin n, A b a = -A a b := by
    intro a b
    have h := congrFun (congrFun hA a) b
    simpa using h
  have hupper : ∀ a b : Fin n, (a : ℕ) < (b : ℕ) →
      (∑ I : Fin (Nalg n),
        ((-1 : ℚ) ^ (rowOf n (I : ℕ) + colOf n (I : ℕ) + 1)
          * A (pivotRow n I) (pivotCol n I)) • TmatQ n I) a b = A a b := by
    intro a b hab
    obtain ⟨I0, hN, hr, hc⟩ := pair_surjective hab b.isLt
    rw [Matrix.sum_apply]
    rw [Finset.sum_eq_single ⟨I0, hN⟩]
    · have hpr : pivotRow n ⟨I0, hN⟩ = a := Fin.ext (by simpa [pivotRow] using hr)
      have hpc : pivotCol n ⟨I0, hN⟩ = b := Fin.ext (by simpa [pivotCol] using hc)
      have hTv : TmatQ n ⟨I0, hN⟩ a b
          = (-1 : ℚ) ^ (rowOf n I0 + colOf n I0 + 1) := by
        rw [TmatQ_apply_entry]
        simp only [Tmat, Matrix.of_apply, hr, hc]
        simp only [and_self, if_true]
        push_cast
        ring
      rw [Matrix.smul_apply, hTv, hpr, hpc]
      have hsq : (-1 : ℚ) ^ (rowOf n I0 + colOf n I0 + 1)
          * (-1 : ℚ) ^ (rowOf n I0 + colOf n I0 + 1) = 1 := by
        rw [← pow_add]
        exact Even.neg_one_pow ⟨rowOf n I0 + colOf n I0 + 1, by ring⟩
      show ((-1 : ℚ) ^ (rowOf n I0 + colOf n I0 + 1) * A a b)
          • ((-1 : ℚ) ^ (rowOf n I0 + colOf n I0 + 1)) = A a b
      rw [smul_eq_mul]
      linear_combination A a b * hsq
    · intro J _ hJ
      have hT0 : TmatQ n J a b = 0 := by
        rw [TmatQ_apply_entry]
        rw [Tmat_apply_off]
        · simp
        · rintro ⟨h1, h2⟩
          exact hJ (Fin.ext (pair_injective J.isLt hN
            (h1.symm.trans hr.symm) (h2.symm.trans hc.symm)))
        · rintro ⟨h1, h2⟩
          have := pair_lt J.isLt
          omega
      rw [Matrix.smul_apply, hT0, smul_zero]
    · intro hI
      exact absurd (Finset.mem_univ _) hI
  ext a b
  rcases lt_trichotomy (a : ℕ) (b : ℕ) with hab | hab | hab
  · exact (hupper a b hab).symm
  · have hab' : a = b := Fin.ext hab
    subst hab'
    have hzero : A a a = 0 := by
      have h := hAanti a a
      linarith
    rw [hzero, Matrix.sum_apply]
    symm
    apply Finset.sum_eq_zero
    intro J _
    have hT0 : TmatQ n J a a = 0 := by
      rw [TmatQ_apply_entry]
      rw [Tmat_apply_off]
      · simp
      · rintro ⟨h1, h2⟩
        have := pair_lt J.isLt
        omega
      · rintro ⟨h1, h2⟩
        have := pair_lt J.isLt
        omega
    rw [Matrix.smul_apply, hT0, smul_zero]
  · have h1 := hupper b a hab
    have hS : (∑ I : Fin (Nalg n),
        ((-1 : ℚ) ^ (rowOf n (I : ℕ) + colOf n (I : ℕ) + 1)
          * A (pivotRow n I) (pivotCol n I)) • TmatQ n I) a b
        = -((∑ I : Fin (Nalg n),
        ((-1 : ℚ) ^ (rowOf n (I : ℕ) + colOf n (I : ℕ) + 1)
          * A (pivotRow n I) (pivotCol n I)) • TmatQ n I) b a) := by
      rw [Matrix.sum_apply, Matrix.sum_apply, ← Finset.sum_neg_distrib]
      apply Finset.sum_congr rfl
      intro J _
      have hT : TmatQ n J a b = -TmatQ n J b a := by
        have h0 := TmatQ_transpose J
        calc TmatQ n J a b = (TmatQ n J)ᵀ b a := rfl
          _ = (-(TmatQ n J)) b a := by rw [h0]
          _ = -TmatQ n J b a := rfl
      rw [Matrix.smul_apply, Matrix.smul_apply, hT]
      simp only [smul_eq_mul]
      ring
    rw [hS, h1]
    exact (hAanti b a).symm ▸ (hAanti b a)

/-- The generators span exactly the antisymmetric matrices. -/
lemma span_TmatQ (n : ℕ) :
    Submodule.span ℚ (Set.range (TmatQ n)) = skewSubmodule n := by
  apply le_antisymm
  · rw [Submodule.span_le]
    rintro _ ⟨I, rfl⟩
    show (TmatQ n I)ᵀ = -TmatQ n I
    exact TmatQ_transpose I
  · intro A hA
    have hA' : Aᵀ = -A := hA
    rw [skew_eq_sum hA']
    exact Submodule.sum_mem _ fun I _ =>
      Submodule.smul_mem _ _ (Submodule.subset_span ⟨I, rfl⟩)

lemma Tmat_apply_pivot_swap {n : ℕ} (I : Fin (Nalg n)) :
    Tmat n (I : ℕ) (pivotCol n I) (pivotRow n I)
      = -(-1) ^ (rowOf n (I : ℕ) + colOf n (I : ℕ) + 1) := by
  have hne : rowOf n (I : ℕ) ≠ colOf n (I : ℕ) := ne_of_lt (pair_lt I.isLt).1
  simp [Tmat, pivotRow, pivotCol, hne, Ne.symm hne]

/-- At the transposed pivot of `I`, every other generator `J` vanishes. -/
lemma Tmat_apply_pivot_swap_ne {n : ℕ} (I J : Fin (Nalg n)) (hne : J ≠ I) :
    Tmat n (J : ℕ) (pivotCol n I) (pivotRow n I) = 0 := by
  have hI := pair_lt I.isLt
  have hJ := pair_lt J.isLt
  apply Tmat_apply_off
  · rintro ⟨h1, h2⟩
    simp only [pivotRow, pivotCol] at h1 h2
    omega
  · rintro ⟨h1, h2⟩
    simp only [pivotRow, pivotCol] at h1 h2
    exact hne (Fin.ext (pair_injective J.isLt I.isLt h2.symm h1.symm))

/-- Frobenius pairing of two generators:
`trace(T_Iᵀ · T_J) = 2·δ_IJ`, exactly, over `ℤ`. -/
lemma trace_Tmat_pairing {n : ℕ} (I J : Fin (Nalg n)) :
    Matrix.trace ((Tmat n (I : ℕ))ᵀ * Tmat n (J : ℕ)) = if I = J then 2 else 0 := by
  have key : Matrix.trace ((Tmat n (I : ℕ))ᵀ * Tmat n (J : ℕ))
      = ∑ p : Fin n × Fin n, Tmat n (I : ℕ) p.1 p.2 * Tmat n (J : ℕ) p.1 p.2 := by
    rw [Matrix.trace]
    simp only [Matrix.diag_apply, Matrix.mul_apply, Matrix.transpose_apply]
    rw [Finset.sum_comm, ← Finset.sum_product']
    rfl
  have hrc : pivotRow n I ≠ pivotCol n I := by
    have := (pair_lt I.isLt).1
    simp only [Ne, Fin.ext_iff, pivotRow, pivotCol]
    omega
  have hpairne : (pivotRow n I, pivotCol n I) ≠ (pivotCol n I, pivotRow n I) := by
    simp only [Ne, Prod.ext_iff, not_and]
    intro h
    exact absurd h hrc
  have hz : ∀ p : Fin n × Fin n, p ∈ (Finset.univ : Finset (Fin n × Fin n)) →
      p ∉ ({(pivotRow n I, pivotCol n I), (pivotCol n I, pivotRow n I)}
        : Finset (Fin n × Fin n)) →
      Tmat n (I : ℕ) p.1 p.2 * Tmat n (J : ℕ) p.1 p.2 = 0 := by
    intro p _ hp
    simp only [Finset.mem_insert, Finset.mem_singleton] at hp
    push_neg at hp
    apply mul_eq_zero_of_left
    apply Tmat_apply_off
    · rintro ⟨h1, h2⟩
      exact hp.1 (Prod.ext (Fin.ext h1) (Fin.ext h2))
    · rintro ⟨h1, h2⟩
      exact hp.2 (Prod.ext (Fin.ext h1) (Fin.ext h2))
  rw [key, ← Finset.sum_subset (Finset.subset_univ _) hz, Finset.sum_pair hpairne]
  rcases eq_or_ne I J with rfl | hne'
  · rw [if_pos rfl]
    have h1 := Tmat_apply_pivot I
    have h2 := Tmat_apply_pivot_swap I
    rw [h1, h2]
    have hsq : ((-1 : ℤ) ^ (rowOf n (I : ℕ) + colOf n (I : ℕ) + 1))
        * ((-1 : ℤ) ^ (rowOf n (I : ℕ) + colOf n (I : ℕ) + 1)) = 1 := by
      rw [← pow_add]
      exact Even.neg_one_pow ⟨rowOf n (I : ℕ) + colOf n (I : ℕ) + 1, by ring⟩
    linear_combination 2 * hsq
  · rw [if_neg hne']
    rw [Tmat_apply_pivot_ne I J (Ne.symm (Ne.symm hne').symm),
      Tmat_apply_pivot_swap_ne I J (Ne.symm hne')]
    ring

/-- The commutator identity `[T_I, T_J] = Σ_K gamma[I,J,K]·T_K` over the
exact integer embedding, for a given `n`. -/
def commutatorHolds (n : ℕ) : Prop :=
  ∀ I J : Fin (Nalg n),
    Tmat n (I : ℕ) * Tmat n (J : ℕ) - Tmat n (J : ℕ) * Tmat n (I : ℕ)
      = ∑ K : Fin (Nalg n), gamma n (I : ℕ) (J : ℕ) (K : ℕ) • Tmat n (K : ℕ)

instance decidableCommutatorHolds (n : ℕ) : Decidable (commutatorHolds n) := by
  unfold commutatorHolds
  infer_instance

set_option maxHeartbeats 1600000 in
/-- **C1**: for every `n ∈ {2,3,4,5}` and all generator indices `I`, `J`,
`T_I·T_J − T_J·T_I = Σ_K gamma[I,J,K]·T_K`, with `T` and `gamma` as built in
`liegr.__init__`.  Over the exact embedding the identity is an equality
(the spec's `1e-5` tolerance is subsumed). -/
theorem commutator_identity_n2_to_n5 :
    commutatorHolds 2 ∧ commutatorHolds 3 ∧ commutatorHolds 4 ∧ commutatorHolds 5 :=
  ⟨by decide, by decide, by decide, by decide⟩

/-- **C5**: for every `n` and all valid indices `I`, `J`, `K`, the structure
constants satisfy `gamma[I,J,K] = -gamma[J,I,K]` and `gamma[I,I,K] = 0`. -/
theorem gamma_antisymmetry (n : ℕ) (I J K : Fin (Nalg n)) :
    gamma n (I : ℕ) (J : ℕ) (K : ℕ) = -gamma n (J : ℕ) (I : ℕ) (K : ℕ)
      ∧ gamma n (I : ℕ) (I : ℕ) (K : ℕ) = 0 := by
  constructor
  · unfold gamma
    rcases lt_trichotomy (I : ℕ) (J : ℕ) with h | h | h
    · rw [if_pos h, if_neg (by omega), if_pos h, neg_neg]
    · rw [if_neg (by omega), if_neg (by omega), if_neg (by omega), if_neg (by omega),
        neg_zero]
    · rw [if_neg (by omega), if_pos h, if_pos h]
  · unfold gamma
    rw [if_neg (by omega), if_neg (by omega)]

/-- **C4**: for every `n ≥ 2` (stated for all `n`; for `n < 2` the family is
empty), `liegr.__init__` constructs exactly `N = n(n-1)/2` generators, each
`n × n` and antisymmetric, linearly independent and spanning the
antisymmetric matrices; `n = 2` gives `N = 1`. -/
theorem generator_basis_spec :
    (∀ n : ℕ, Fintype.card (Fin (Nalg n)) = n * (n - 1) / 2
      ∧ (∀ I : Fin (Nalg n), (TmatQ n I)ᵀ = -TmatQ n I)
      ∧ LinearIndependent ℚ (TmatQ n)
      ∧ Submodule.span ℚ (Set.range (TmatQ n)) = skewSubmodule n)
    ∧ Nalg 2 = 1 := by
  refine ⟨fun n => ⟨?_, fun I => TmatQ_transpose I, TmatQ_linearIndependent n,
    span_TmatQ n⟩, rfl⟩
  simp [Nalg]

lemma rowOf_le_rowOf {n I J : ℕ} (h : I ≤ J) : rowOf n I ≤ rowOf n J := by
  have hPr : rowBase n (rowOf n I) ≤ I :=
    Nat.findGreatest_spec (P := fun i => rowBase n i ≤ I) (m := 0)
      (Nat.zero_le n) (by simp [rowBase_zero])
  exact Nat.le_findGreatest (Nat.findGreatest_le n) (le_trans hPr h)

/-- The index map lists the pairs in row-major (lexicographic) order. -/
lemma pair_lex_mono {n I J : ℕ} (hIJ : I < J) :
    rowOf n I < rowOf n J ∨ (rowOf n I = rowOf n J ∧ colOf n I < colOf n J) := by
  have hle := rowOf_le_rowOf (n := n) (le_of_lt hIJ)
  rcases eq_or_lt_of_le hle with heq | hlt
  · right
    refine ⟨heq, ?_⟩
    have hPrI : rowBase n (rowOf n I) ≤ I :=
      Nat.findGreatest_spec (P := fun i => rowBase n i ≤ I) (m := 0)
        (Nat.zero_le n) (by simp [rowBase_zero])
    simp only [colOf]
    rw [← heq]
    omega
  · left
    exact hlt

/-- Counterexample to **C6** as stated: the claim asserts entry `+1` at the
pair position `(i, j)`, but the source writes `(-1.)**(i+j+1.)` there.  At
`n = 3`, `I = 1` the pair is `(0, 2)` (row-major, as claimed) and the entry
at `(0, 2)` is `-1`, not `+1`. -/
theorem generator_sign_counterexample :
    rowOf 3 1 = 0 ∧ colOf 3 1 = 2 ∧
    Tmat 3 1 (0 : Fin 3) (2 : Fin 3) = -1 ∧ ¬ Tmat 3 1 (0 : Fin 3) (2 : Fin 3) = 1 := by
  decide

/-- **C6 (amended)**: for every `n` and every `I < N`, generator `T[I]` has
entry `(-1)^(i+j+1)` at `(i, j)`, the negated value at `(j, i)` and `0`
elsewhere, where `(i, j) = (rowOf n I, colOf n I)`; the map `I ↦ (i, j)` is
a bijection from `{0, …, N-1}` onto the strict upper triangle
`{(i, j) | i < j < n}`, and it is strictly increasing for the row-major
(lexicographic) order, so `(i, j)` is the `I`-th unordered pair in
row-major order.  (The claim's value `+1` at `(i, j)` is amended to
`(-1)^(i+j+1)`.) -/
theorem generator_index_bijection (n : ℕ) :
    Set.BijOn (fun I => (rowOf n I, colOf n I)) (Set.Iio (Nalg n))
      {p : ℕ × ℕ | p.1 < p.2 ∧ p.2 < n}
    ∧ (∀ I J : Fin (Nalg n), (I : ℕ) < (J : ℕ) ↔
        (rowOf n (I : ℕ) < rowOf n (J : ℕ)
          ∨ (rowOf n (I : ℕ) = rowOf n (J : ℕ) ∧ colOf n (I : ℕ) < colOf n (J : ℕ))))
    ∧ (∀ I : Fin (Nalg n), ∀ a b : Fin n,
        Tmat n (I : ℕ) a b =
          if (a : ℕ) = rowOf n (I : ℕ) ∧ (b : ℕ) = colOf n (I : ℕ)
            then (-1) ^ (rowOf n (I : ℕ) + colOf n (I : ℕ) + 1)
          else if (a : ℕ) = colOf n (I : ℕ) ∧ (b : ℕ) = rowOf n (I : ℕ)
            then -(-1) ^ (rowOf n (I : ℕ) + colOf n (I : ℕ) + 1)
          else 0) := by
  refine ⟨⟨?_, ?_, ?_⟩, ?_, ?_⟩
  · intro I hI
    exact ⟨(pair_lt hI).1, (pair_lt hI).2⟩
  · intro I hI J hJ hEq
    exact pair_injective hI hJ (congrArg Prod.fst hEq) (congrArg Prod.snd hEq)
  · intro p hp
    obtain ⟨I, hIN, hr, hc⟩ := pair_surjective hp.1 hp.2
    exact ⟨I, hIN, by simp [hr, hc]⟩
  · intro I J
    constructor
    · intro h
      exact pair_lex_mono h
    · intro h
      rcases lt_trichotomy (I : ℕ) (J : ℕ) with hlt | heq | hgt
      · exact hlt
      · exfalso
        rw [heq] at h
        omega
      · exfalso
        have := pair_lex_mono (n := n) hgt
        omega
  · intro I a b
    rfl

/-!
## The manifold optimizer (`OrthoOptimizer`, lines 388-434)

`get_grads` (lines 407-416) gathers, per batch item, the variable block
`var` and raw gradient `grad` and computes
`mod = einsum('ijk,ijl->ikl',var,grad) - einsum('ijk,ijl->ikl',grad,var)`,
i.e. `Vᵀ·G - Gᵀ·V` per item.  `apply_grads` (lines 418-429) computes
`mul1 = I - lr*grad/2`, `mul2 = (I + lr*grad/2)⁻¹`, `update = var·mul1·mul2`.
The embedding is per batch item; `tf.matrix_inverse` is `Matrix.inv`.
-/

/-- `mod = part1 - part2` of `OrthoOptimizer.get_grads` (lines 412-414):
the tangent projection `Vᵀ·G - Gᵀ·V` of one batch item. -/
def get_grads_mod (k : ℕ) (var grad : Matrix (Fin k) (Fin k) ℝ) :
    Matrix (Fin k) (Fin k) ℝ :=
  varᵀ * grad - gradᵀ * var

/-- `OrthoOptimizer.apply_grads` (lines 418-429) on one batch item:
`var * ((I - lr*grad/2) * (I + lr*grad/2)⁻¹)`.  There is no validation,
no retry and no exception path in the source; a singular denominator goes
straight into `tf.matrix_inverse` (embedded as `Matrix.inv`, which yields
the zero matrix on a non-invertible input). -/
noncomputable def apply_grads (k : ℕ) (lr : ℝ)
    (grad var : Matrix (Fin k) (Fin k) ℝ) : Matrix (Fin k) (Fin k) ℝ :=
  var * ((1 - (lr / 2) • grad) * (1 + (lr / 2) • grad)⁻¹)

/-- `OrthoOptimizer.minimize` composes the two: the Cayley update of `V`
along the projected gradient of `G`. -/
noncomputable def cayley_update (k : ℕ) (lr : ℝ)
    (V G : Matrix (Fin k) (Fin k) ℝ) : Matrix (Fin k) (Fin k) ℝ :=
  apply_grads k lr (get_grads_mod k V G) V

/-- **C2**: for every orthogonal `V` and every gradient `G` of the same
shape, the `OrthoOptimizer` update — `skew = Vᵀ·G - Gᵀ·V` (antisymmetric),
`M = (I - (lr/2)·skew)·(I + (lr/2)·skew)⁻¹`, `V_new = V·M` — yields an
exactly orthogonal `V_new`, for every `lr` such that `I + (lr/2)·skew` is
invertible. -/
theorem cayley_update_orthogonal {k : ℕ} (lr : ℝ) (V G : Matrix (Fin k) (Fin k) ℝ)
    (hV : Vᵀ * V = 1)
    (hdet : IsUnit (1 + (lr / 2) • get_grads_mod k V G).det) :
    (get_grads_mod k V G)ᵀ = -(get_grads_mod k V G)
    ∧ (cayley_update k lr V G)ᵀ * cayley_update k lr V G = 1 := by
  have hSkew : (get_grads_mod k V G)ᵀ = -(get_grads_mod k V G) := by
    unfold get_grads_mod
    rw [Matrix.transpose_sub, Matrix.transpose_mul, Matrix.transpose_mul,
      Matrix.transpose_transpose, Matrix.transpose_transpose]
    abel
  refine ⟨hSkew, ?_⟩
  set S := get_grads_mod k V G with hS
  set C := (lr / 2) • S with hC
  have hCT : Cᵀ = -C := by
    rw [hC, Matrix.transpose_smul, hSkew, smul_neg]
  have hBT : (1 + C)ᵀ = 1 - C := by
    rw [Matrix.transpose_add, Matrix.transpose_one, hCT, sub_eq_add_neg]
  have hAT : (1 - C)ᵀ = 1 + C := by
    rw [Matrix.transpose_sub, Matrix.transpose_one, hCT, sub_neg_eq_add]
  have hdetA : IsUnit (1 - C).det := by
    rw [← hBT, Matrix.det_transpose]
    exact hdet
  have hcomm : (1 + C) * (1 - C) = (1 - C) * (1 + C) := by
    noncomm_ring
  have hMT : ((1 - C) * (1 + C)⁻¹)ᵀ = (1 - C)⁻¹ * (1 + C) := by
    rw [Matrix.transpose_mul, Matrix.transpose_nonsing_inv, hBT, hAT]
  have hMM : ((1 - C) * (1 + C)⁻¹)ᵀ * ((1 - C) * (1 + C)⁻¹) = 1 := by
    rw [hMT]
    calc (1 - C)⁻¹ * (1 + C) * ((1 - C) * (1 + C)⁻¹)
        = (1 - C)⁻¹ * ((1 + C) * (1 - C)) * (1 + C)⁻¹ := by
          simp only [Matrix.mul_assoc]
      _ = (1 - C)⁻¹ * ((1 - C) * (1 + C)) * (1 + C)⁻¹ := by rw [hcomm]
      _ = ((1 - C)⁻¹ * (1 - C)) * ((1 + C) * (1 + C)⁻¹) := by
          simp only [Matrix.mul_assoc]
      _ = 1 * 1 := by
          rw [Matrix.nonsing_inv_mul _ hdetA, Matrix.mul_nonsing_inv _ hdet]
      _ = 1 := by rw [one_mul]
  show (V * ((1 - C) * (1 + C)⁻¹))ᵀ * (V * ((1 - C) * (1 + C)⁻¹)) = 1
  rw [Matrix.transpose_mul]
  calc ((1 - C) * (1 + C)⁻¹)ᵀ * Vᵀ * (V * ((1 - C) * (1 + C)⁻¹))
      = ((1 - C) * (1 + C)⁻¹)ᵀ * (Vᵀ * V) * ((1 - C) * (1 + C)⁻¹) := by
        simp only [Matrix.mul_assoc]
    _ = ((1 - C) * (1 + C)⁻¹)ᵀ * ((1 - C) * (1 + C)⁻¹) := by
        rw [hV, Matrix.mul_one]
    _ = 1 := hMM

/-- Witness for **C2** at a concrete input: `V = I₂`, `G = 0`, `lr = 1`. -/
theorem cayley_update_orthogonal_witness :
    (get_grads_mod 2 (1 : Matrix (Fin 2) (Fin 2) ℝ) 0)ᵀ
        = -(get_grads_mod 2 (1 : Matrix (Fin 2) (Fin 2) ℝ) 0)
    ∧ (cayley_update 2 1 (1 : Matrix (Fin 2) (Fin 2) ℝ) 0)ᵀ
        * cayley_update 2 1 (1 : Matrix (Fin 2) (Fin 2) ℝ) 0 = 1 :=
  cayley_update_orthogonal 1 1 0 (by simp)
    (by simp [get_grads_mod])

/-!
## The exponential map (`liegr.expm`, lines 211-221)

`expm` contracts the coefficient vector against the generators,
`x = tf.einsum('ij,jkl->ikl', alg, T)`, and applies `tf.linalg.expm`.
The embedding is per batch item, over `ℝ`, with `NormedSpace.exp`.
-/

/-- The generators over `ℝ`. -/
noncomputable def TmatR (n I : ℕ) : Matrix (Fin n) (Fin n) ℝ :=
  (Tmat n I).map (fun z => (z : ℝ))

lemma TmatR_transpose {n : ℕ} (I : Fin (Nalg n)) :
    (TmatR n (I : ℕ))ᵀ = -TmatR n (I : ℕ) := by
  ext a b
  have h : Tmat n (I : ℕ) b a = -(Tmat n (I : ℕ) a b) := by
    have h0 := Tmat_transpose I.isLt
    calc Tmat n (I : ℕ) b a = (Tmat n (I : ℕ))ᵀ a b := rfl
      _ = (-(Tmat n (I : ℕ))) a b := by rw [h0]
      _ = -(Tmat n (I : ℕ) a b) := rfl
  simp only [Matrix.transpose_apply, TmatR, Matrix.map_apply, Matrix.neg_apply, h]
  push_cast
  ring

/-- The per-item algebra matrix `tf.einsum('ij,jkl->ikl', alg, T)`
(line 218): entry `(a, b)` is `Σ_J alg[J]·T[J][a,b]`. -/
noncomputable def algMatrix (n : ℕ) (alg : Fin (Nalg n) → ℝ) :
    Matrix (Fin n) (Fin n) ℝ :=
  Matrix.of fun a b => ∑ J : Fin (Nalg n), alg J * TmatR n (J : ℕ) a b

lemma algMatrix_eq_sum (n : ℕ) (alg : Fin (Nalg n) → ℝ) :
    algMatrix n alg = ∑ J : Fin (Nalg n), alg J • TmatR n (J : ℕ) := by
  ext a b
  simp [algMatrix, Matrix.sum_apply]

lemma algMatrix_skew (n : ℕ) (alg : Fin (Nalg n) → ℝ) :
    (algMatrix n alg)ᵀ = -algMatrix n alg := by
  rw [algMatrix_eq_sum]
  rw [Matrix.transpose_sum, ← Finset.sum_neg_distrib]
  apply Finset.sum_congr rfl
  intro J _
  rw [Matrix.transpose_smul, TmatR_transpose, smul_neg]

/-- `liegr.expm` (lines 211-221) on one batch item: the matrix exponential
of the contracted algebra element.  (The gradient-registration bookkeeping
of lines 212-219 only wires `_exp_grad` into the graph and does not change
the forward value.) -/
noncomputable def expm (n : ℕ) (alg : Fin (Nalg n) → ℝ) :
    Matrix (Fin n) (Fin n) ℝ :=
  NormedSpace.exp ℝ (algMatrix n alg)

lemma exp_skew_orthogonal {n : ℕ} {X : Matrix (Fin n) (Fin n) ℝ} (hX : Xᵀ = -X) :
    (NormedSpace.exp ℝ X)ᵀ * NormedSpace.exp ℝ X = 1 := by
  rw [← Matrix.exp_transpose, hX,
    ← Matrix.exp_add_of_commute ℝ (-X) X (Commute.neg_left (Commute.refl X)),
    neg_add_cancel, NormedSpace.exp_zero]

lemma det_exp_skew {n : ℕ} {X : Matrix (Fin n) (Fin n) ℝ} (hX : Xᵀ = -X) :
    (NormedSpace.exp ℝ X).det = 1 := by
  have hskew : ∀ t : ℝ, (t • X)ᵀ = -(t • X) := fun t => by
    rw [Matrix.transpose_smul, hX, smul_neg]
  have hunit : ∀ t : ℝ, IsUnit (NormedSpace.exp ℝ (t • X)).det := fun t =>
    (Matrix.isUnit_iff_isUnit_det _).mp (Matrix.isUnit_exp ℝ _)
  have hne : ∀ t : ℝ, (NormedSpace.exp ℝ (t • X)).det ≠ 0 := fun t => (hunit t).ne_zero
  have hcont : Continuous fun t : ℝ => (NormedSpace.exp ℝ (t • X)).det := by
    apply Continuous.matrix_det
    letI : SeminormedRing (Matrix (Fin n) (Fin n) ℝ) := Matrix.linftyOpSemiNormedRing
    letI : NormedRing (Matrix (Fin n) (Fin n) ℝ) := Matrix.linftyOpNormedRing
    letI : NormedAlgebra ℝ (Matrix (Fin n) (Fin n) ℝ) := Matrix.linftyOpNormedAlgebra
    exact NormedSpace.exp_continuous.comp (continuous_id.smul continuous_const)
  have h0 : (NormedSpace.exp ℝ ((0 : ℝ) • X)).det = 1 := by
    rw [zero_smul, NormedSpace.exp_zero, Matrix.det_one]
  have hpos : 0 < (NormedSpace.exp ℝ ((1 : ℝ) • X)).det := by
    rcases lt_trichotomy (NormedSpace.exp ℝ ((1 : ℝ) • X)).det 0 with hlt | heq | hgt
    · exfalso
      have hsub : (0 : ℝ) ∈ Set.Icc (NormedSpace.exp ℝ ((1 : ℝ) • X)).det
          (NormedSpace.exp ℝ ((0 : ℝ) • X)).det := by
        rw [h0]
        exact ⟨le_of_lt hlt, zero_le_one⟩
      obtain ⟨c, _, hc0⟩ := intermediate_value_Icc' zero_le_one hcont.continuousOn hsub
      exact hne c hc0
    · exact absurd heq (hne 1)
    · exact hgt
  have hsq : (NormedSpace.exp ℝ X).det * (NormedSpace.exp ℝ X).det = 1 := by
    have h := congrArg Matrix.det (exp_skew_orthogonal hX)
    rw [Matrix.det_mul, Matrix.det_transpose, Matrix.det_one] at h
    exact h
  rw [one_smul] at hpos
  have hfac : ((NormedSpace.exp ℝ X).det - 1) * ((NormedSpace.exp ℝ X).det + 1) = 0 := by
    linear_combination hsq
  rcases mul_eq_zero.mp hfac with h1 | h1
  · linarith
  · linarith

/-- **C3**: for every coefficient vector `x` of length `N`, the exponential
map's output `exp(Σ_I x_I·T_I)` is exactly orthogonal with determinant
exactly `+1` (the spec's numerical tolerances are subsumed by equality in
the exact embedding). -/
theorem expm_orthogonal_det_one (n : ℕ) (x : Fin (Nalg n) → ℝ) :
    (expm n x)ᵀ * expm n x = 1 ∧ (expm n x).det = 1 :=
  ⟨exp_skew_orthogonal (algMatrix_skew n x), det_exp_skew (algMatrix_skew n x)⟩

/-!
## The closed-form differential `_exp_grad` (lines 190-204)

The function receives `(op, grad)`; it reads `x_raw = op.inputs[0]` (the
algebra **matrix** fed to `tf.linalg.expm`) and `y = op.outputs[0]` (the
forward output), and immediately rebinds the name `grad` — the incoming
upstream gradient is never used.  All einsums carry the batch index
pointwise; the embedding is per item.
-/

/-- Line 196: `x = tf.einsum('ijk,ljk->il', x_raw, T)/2.`, the coefficient
recovery `x_l = (Σ_{j,k} x_raw[j,k]·T[l][j,k])/2`.  The same contraction
(as `'ij,kij->k'`) is the matrix-logarithm readout of line 365 of
`make_embeddings`. -/
noncomputable def xCoeff (n : ℕ) (x_raw : Matrix (Fin n) (Fin n) ℝ) :
    Fin (Nalg n) → ℝ :=
  fun l => (∑ j : Fin n, ∑ k : Fin n, x_raw j k * TmatR n (l : ℕ) j k) / 2

/-- Line 197: `b = tf.einsum('ij,jkl->ikl', x, gamma) + deltaq*tf.eye(N)`,
`deltaq = 1e-4 = 1/10000`. -/
noncomputable def Bmat (n : ℕ) (x : Fin (Nalg n) → ℝ) :
    Matrix (Fin (Nalg n)) (Fin (Nalg n)) ℝ :=
  Matrix.of (fun k l : Fin (Nalg n) =>
    ∑ j : Fin (Nalg n), x j * ((gamma n (j : ℕ) (k : ℕ) (l : ℕ) : ℤ) : ℝ))
    + (1 / 10000 : ℝ) • 1

/-- Lines 198-199: `c = eye(N) - expm(-b)`; `s = c · matrix_inverse(b)`. -/
noncomputable def Smat (n : ℕ) (x : Fin (Nalg n) → ℝ) :
    Matrix (Fin (Nalg n)) (Fin (Nalg n)) ℝ :=
  (1 - NormedSpace.exp ℝ (-(Bmat n x))) * (Bmat n x)⁻¹

/-- Line 200: `t = tf.einsum('ijk,klm->ijlm', s, T)`. -/
noncomputable def tTen (n : ℕ) (x : Fin (Nalg n) → ℝ) (I : Fin (Nalg n)) :
    Matrix (Fin n) (Fin n) ℝ :=
  Matrix.of fun a b => ∑ K : Fin (Nalg n), Smat n x I K * TmatR n (K : ℕ) a b

/-- Line 201: `grad = tf.einsum('ijk,ilkm->iljm', y, t)`, contracting the
forward output `y` (not the upstream gradient). -/
noncomputable def gradTen (n : ℕ) (x : Fin (Nalg n) → ℝ)
    (y : Matrix (Fin n) (Fin n) ℝ) (l : Fin (Nalg n)) : Matrix (Fin n) (Fin n) ℝ :=
  Matrix.of fun j m => ∑ k : Fin n, y j k * tTen n x l k m

/-- Line 202: `out_vec = reduce_sum(reduce_sum(grad, axis=2), axis=2)`:
one length-`N` vector per item. -/
noncomputable def outVec (n : ℕ) (x_raw y : Matrix (Fin n) (Fin n) ℝ) :
    Fin (Nalg n) → ℝ :=
  fun l => ∑ j : Fin n, ∑ m : Fin n, gradTen n (xCoeff n x_raw) y l j m

/-- `_exp_grad` as a whole (lines 190-204): inputs are the op's input
`x_raw`, its output `y`, and the upstream gradient (the `grad` parameter,
bound here as `upstreamGrad` and never used, exactly as in the source
where line 201 shadows it); the return value is
`out = tf.einsum('ij,jkl->ikl', out_vec, T)`, an `n×n` matrix per item. -/
noncomputable def exp_grad (n : ℕ)
    (x_raw y _upstreamGrad : Matrix (Fin n) (Fin n) ℝ) : Matrix (Fin n) (Fin n) ℝ :=
  Matrix.of fun a b => ∑ l : Fin (Nalg n), outVec n x_raw y l * TmatR n (l : ℕ) a b

/-- Modelled from the spec (§4.3), for comparison with the code: the same
contraction pipeline, but applied to the *upstream gradient* `g` as the
spec's words require ("Contract the upstream gradient with the generator
basis and S, summing over the matrix's row/column axes"). -/
noncomputable def specContract (n : ℕ) (x_raw g : Matrix (Fin n) (Fin n) ℝ) :
    Fin (Nalg n) → ℝ :=
  fun l => ∑ j : Fin n, ∑ m : Fin n, ∑ k : Fin n,
    g j k * tTen n (xCoeff n x_raw) l k m

/-- The einsum chain of `_exp_grad` regrouped: `out_vec` is the
`S`-weighted contraction of the output with the generator basis, summed
over the matrix axes. -/
lemma outVec_eq_spec (n : ℕ) (x_raw y : Matrix (Fin n) (Fin n) ℝ) (l : Fin (Nalg n)) :
    outVec n x_raw y l
      = ∑ K : Fin (Nalg n), Smat n (xCoeff n x_raw) l K
          * (∑ k : Fin n, (∑ j : Fin n, y j k) * (∑ m : Fin n, TmatR n (K : ℕ) k m)) := by
  unfold outVec gradTen tTen
  simp only [Matrix.of_apply, Finset.mul_sum, Finset.sum_mul]
  calc ∑ j : Fin n, ∑ m : Fin n, ∑ k : Fin n, ∑ K : Fin (Nalg n),
        y j k * (Smat n (xCoeff n x_raw) l K * TmatR n (K : ℕ) k m)
      = ∑ j : Fin n, ∑ m : Fin n, ∑ K : Fin (Nalg n), ∑ k : Fin n,
        y j k * (Smat n (xCoeff n x_raw) l K * TmatR n (K : ℕ) k m) :=
        Finset.sum_congr rfl fun j _ => Finset.sum_congr rfl fun m _ => Finset.sum_comm
    _ = ∑ j : Fin n, ∑ K : Fin (Nalg n), ∑ m : Fin n, ∑ k : Fin n,
        y j k * (Smat n (xCoeff n x_raw) l K * TmatR n (K : ℕ) k m) :=
        Finset.sum_congr rfl fun j _ => Finset.sum_comm
    _ = ∑ K : Fin (Nalg n), ∑ j : Fin n, ∑ m : Fin n, ∑ k : Fin n,
        y j k * (Smat n (xCoeff n x_raw) l K * TmatR n (K : ℕ) k m) :=
        Finset.sum_comm
    _ = ∑ K : Fin (Nalg n), ∑ j : Fin n, ∑ k : Fin n, ∑ m : Fin n,
        y j k * (Smat n (xCoeff n x_raw) l K * TmatR n (K : ℕ) k m) :=
        Finset.sum_congr rfl fun K _ => Finset.sum_congr rfl fun j _ => Finset.sum_comm
    _ = ∑ K : Fin (Nalg n), ∑ k : Fin n, ∑ j : Fin n, ∑ m : Fin n,
        y j k * (Smat n (xCoeff n x_raw) l K * TmatR n (K : ℕ) k m) :=
        Finset.sum_congr rfl fun K _ => Finset.sum_comm
    _ = ∑ K : Fin (Nalg n), ∑ k : Fin n, ∑ j : Fin n, ∑ m : Fin n,
        Smat n (xCoeff n x_raw) l K * (y j k * TmatR n (K : ℕ) k m) :=
        Finset.sum_congr rfl fun K _ => Finset.sum_congr rfl fun k _ =>
          Finset.sum_congr rfl fun j _ => Finset.sum_congr rfl fun m _ => by ring
    _ = ∑ K : Fin (Nalg n), ∑ k : Fin n, ∑ m : Fin n, ∑ j : Fin n,
        Smat n (xCoeff n x_raw) l K * (y j k * TmatR n (K : ℕ) k m) :=
        Finset.sum_congr rfl fun K _ => Finset.sum_congr rfl fun k _ =>
          Finset.sum_comm

/-- **C7 (amended)**: `_exp_grad` is a pure function of the op's input and
output; it forms `B[I,J] = Σ_K x_K·gamma[K,I,J] + ε·δ_IJ` with `ε = 1e-4`
and `S = (I − exp(−B))·B⁻¹`; but it contracts the op's forward *output*
(the upstream-gradient argument is ignored: the result is the same for any
two upstream gradients `g`, `g'`) with the generator basis and `S`,
summing over the matrix row/column axes, into a per-item length-`N`
vector `out_vec`; and it returns not that vector but its contraction
`Σ_l out_vec[l]·T_l` with the generator basis — an `n×n` matrix per item,
matching the op's matrix input rather than the coefficient vector. -/
theorem exp_grad_spec (n : ℕ) (x_raw y g g' : Matrix (Fin n) (Fin n) ℝ) :
    exp_grad n x_raw y g = exp_grad n x_raw y g'
    ∧ (∀ (x : Fin (Nalg n) → ℝ) (I J : Fin (Nalg n)),
        Bmat n x I J
          = (∑ K : Fin (Nalg n), x K * ((gamma n (K : ℕ) (I : ℕ) (J : ℕ) : ℤ) : ℝ))
            + (if I = J then 1 / 10000 else 0))
    ∧ (∀ l : Fin (Nalg n), outVec n x_raw y l
        = ∑ K : Fin (Nalg n), Smat n (xCoeff n x_raw) l K
            * (∑ k : Fin n, (∑ j : Fin n, y j k) * (∑ m : Fin n, TmatR n (K : ℕ) k m)))
    ∧ exp_grad n x_raw y g
        = ∑ l : Fin (Nalg n), outVec n x_raw y l • TmatR n (l : ℕ) := by
  refine ⟨rfl, ?_, outVec_eq_spec n x_raw y, ?_⟩
  · intro x I J
    simp only [Bmat, Matrix.add_apply, Matrix.of_apply, Matrix.smul_apply,
      Matrix.one_apply, smul_eq_mul, mul_ite, mul_one, mul_zero]
  · ext a b
    simp [exp_grad, Matrix.sum_apply]

/-- **C10**: the generators are orthogonal for the Frobenius pairing with
squared norm `2` — `trace(T_Iᵀ·T_J) = 2·δ_IJ` — and therefore the
coefficient-recovery contraction `x = ⟨X, T⟩/2` of `_exp_grad` (line 196)
and of the matrix-logarithm readout (line 365) exactly inverts the
coefficient-to-matrix contraction `X = Σ_I x_I·T_I` of `expm`. -/
theorem frobenius_normalization (n : ℕ) (I J : Fin (Nalg n))
    (x : Fin (Nalg n) → ℝ) :
    Matrix.trace ((Tmat n (I : ℕ))ᵀ * Tmat n (J : ℕ)) = (if I = J then 2 else 0)
    ∧ xCoeff n (algMatrix n x) = x := by
  refine ⟨trace_Tmat_pairing I J, ?_⟩
  have pairR : ∀ L l : Fin (Nalg n),
      (∑ j : Fin n, ∑ k : Fin n, TmatR n (L : ℕ) j k * TmatR n (l : ℕ) j k)
        = if L = l then 2 else 0 := by
    intro L l
    have hZ : (∑ j : Fin n, ∑ k : Fin n, Tmat n (L : ℕ) j k * Tmat n (l : ℕ) j k)
        = if L = l then 2 else 0 := by
      have h2 : Matrix.trace ((Tmat n (L : ℕ))ᵀ * Tmat n (l : ℕ))
          = ∑ k : Fin n, ∑ j : Fin n, Tmat n (L : ℕ) j k * Tmat n (l : ℕ) j k := by
        rw [Matrix.trace]
        simp only [Matrix.diag_apply, Matrix.mul_apply, Matrix.transpose_apply]
      rw [Finset.sum_comm, ← h2, trace_Tmat_pairing L l]
    have hcast := congrArg (fun z : ℤ => (z : ℝ)) hZ
    push_cast at hcast
    rcases eq_or_ne L l with rfl | hne
    · simpa [TmatR] using hcast
    · simpa [TmatR, hne] using hcast
  funext l
  unfold xCoeff
  rw [algMatrix_eq_sum]
  have hexp : (∑ j : Fin n, ∑ k : Fin n,
      (∑ L : Fin (Nalg n), x L • TmatR n (L : ℕ)) j k * TmatR n (l : ℕ) j k)
      = ∑ L : Fin (Nalg n), x L
          * (∑ j : Fin n, ∑ k : Fin n, TmatR n (L : ℕ) j k * TmatR n (l : ℕ) j k) := by
    simp only [Matrix.sum_apply, Matrix.smul_apply, smul_eq_mul,
      Finset.sum_mul, Finset.mul_sum]
    calc ∑ j : Fin n, ∑ k : Fin n, ∑ L : Fin (Nalg n),
          x L * TmatR n (L : ℕ) j k * TmatR n (l : ℕ) j k
        = ∑ j : Fin n, ∑ L : Fin (Nalg n), ∑ k : Fin n,
          x L * TmatR n (L : ℕ) j k * TmatR n (l : ℕ) j k :=
          Finset.sum_congr rfl fun j _ => Finset.sum_comm
      _ = ∑ L : Fin (Nalg n), ∑ j : Fin n, ∑ k : Fin n,
          x L * TmatR n (L : ℕ) j k * TmatR n (l : ℕ) j k :=
          Finset.sum_comm
      _ = ∑ L : Fin (Nalg n), ∑ j : Fin n, ∑ k : Fin n,
          x L * (TmatR n (L : ℕ) j k * TmatR n (l : ℕ) j k) :=
          Finset.sum_congr rfl fun L _ => Finset.sum_congr rfl fun j _ =>
            Finset.sum_congr rfl fun k _ => by ring
  rw [hexp]
  have hsum : (∑ L : Fin (Nalg n), x L
      * (∑ j : Fin n, ∑ k : Fin n, TmatR n (L : ℕ) j k * TmatR n (l : ℕ) j k))
      = x l * 2 := by
    rw [Finset.sum_eq_single l]
    · rw [pairR l l, if_pos rfl]
    · intro L _ hne
      rw [pairR L l, if_neg hne, mul_zero]
    · intro h
      exact absurd (Finset.mem_univ l) h
  rw [hsum]
  ring

/-- The op-output matrix used in the counterexample below. -/
noncomputable def yCex : Matrix (Fin 2) (Fin 2) ℝ := Matrix.of ![![1, 0], ![0, 0]]

lemma xCoeff_zero : xCoeff 2 (0 : Matrix (Fin 2) (Fin 2) ℝ) = fun _ => 0 := by
  funext l
  simp [xCoeff]

lemma Bmat_zero :
    Bmat 2 (fun _ => (0 : ℝ)) = Matrix.diagonal (fun _ => (1 / 10000 : ℝ)) := by
  ext k l
  rcases eq_or_ne k l with rfl | h
  · simp [Bmat, Matrix.one_apply]
  · simp [Bmat, Matrix.diagonal_apply_ne _ h, Matrix.one_apply_ne h]

lemma Bmat_zero_exp_neg :
    NormedSpace.exp ℝ (-(Bmat 2 (fun _ => (0 : ℝ))))
      = Matrix.diagonal (fun _ => Real.exp (-(1 / 10000))) := by
  rw [Bmat_zero]
  rw [show -(Matrix.diagonal (fun _ : Fin (Nalg 2) => (1 / 10000 : ℝ)))
      = Matrix.diagonal (fun _ : Fin (Nalg 2) => -(1 / 10000 : ℝ)) from by
    rw [Matrix.diagonal_neg]]
  rw [Matrix.exp_diagonal, Pi.exp_def]
  funext i
  rw [Real.exp_eq_exp_ℝ]

lemma Bmat_zero_inv :
    (Bmat 2 (fun _ => (0 : ℝ)))⁻¹ = Matrix.diagonal (fun _ => (10000 : ℝ)) := by
  apply Matrix.inv_eq_right_inv
  rw [Bmat_zero, Matrix.diagonal_mul_diagonal]
  rw [show (fun i : Fin (Nalg 2) => (1 / 10000 : ℝ) * 10000) = fun _ => 1 from by
    funext i; norm_num]
  exact Matrix.diagonal_one

lemma Smat_zero :
    Smat 2 (fun _ => (0 : ℝ))
      = Matrix.diagonal (fun _ => (1 - Real.exp (-(1 / 10000))) * 10000) := by
  unfold Smat
  rw [Bmat_zero_exp_neg, Bmat_zero_inv, ← Matrix.diagonal_one, Matrix.diagonal_sub,
    Matrix.diagonal_mul_diagonal]

lemma Nalg_two_univ :
    (Finset.univ : Finset (Fin (Nalg 2))) = {⟨0, by decide⟩} := by
  apply Finset.eq_singleton_iff_unique_mem.mpr
  refine ⟨Finset.mem_univ _, ?_⟩
  intro b _
  have hb := b.isLt
  have h1 : Nalg 2 = 1 := rfl
  apply Fin.ext
  omega

lemma Tmat_two_zero : Tmat 2 0 = Matrix.of ![![0, 1], ![-1, 0]] := by
  decide

lemma outVec_cex_value :
    outVec 2 (0 : Matrix (Fin 2) (Fin 2) ℝ) yCex ⟨0, by decide⟩
      = (1 - Real.exp (-(1 / 10000))) * 10000 := by
  unfold outVec gradTen tTen
  simp only [Matrix.of_apply]
  rw [xCoeff_zero]
  simp only [Nalg_two_univ, Finset.sum_singleton, Smat_zero, Matrix.diagonal_apply_eq]
  simp only [Fin.sum_univ_two]
  have hT : ∀ a b : Fin 2, TmatR 2 ((⟨0, by decide⟩ : Fin (Nalg 2)) : ℕ) a b
      = (Matrix.of ![![(0 : ℝ), 1], ![-1, 0]]) a b := by
    intro a b
    show TmatR 2 0 a b = _
    rw [TmatR, Tmat_two_zero]
    fin_cases a <;> fin_cases b <;> simp
  simp only [hT]
  simp [yCex]

/-- Counterexample to **C7** as stated: the claim says `_exp_grad`
"contracts the upstream gradient … to obtain the gradient with respect to
each coefficient" and "produces a gradient … one length-N vector per
item".  In the source the upstream gradient argument is shadowed on
line 201 and never used — the contraction is applied to the op's forward
output `y` instead — and the returned value is an `n×n` matrix.  At the
concrete input `x_raw = 0`, `y = yCex`, upstream gradient `0`, the
length-N vector the code forms (`out_vec`) differs from the spec's
contraction of the upstream gradient (which is identically `0` there),
and the returned value is unchanged when the upstream gradient is
replaced by a different matrix. -/
theorem exp_grad_counterexample :
    outVec 2 (0 : Matrix (Fin 2) (Fin 2) ℝ) yCex ≠ specContract 2 0 0
    ∧ exp_grad 2 (0 : Matrix (Fin 2) (Fin 2) ℝ) yCex 0 = exp_grad 2 0 yCex yCex := by
  constructor
  · intro h
    have hfun := congrFun h ⟨0, by decide⟩
    rw [outVec_cex_value] at hfun
    have hzero : specContract 2 (0 : Matrix (Fin 2) (Fin 2) ℝ) 0 ⟨0, by decide⟩ = 0 := by
      simp [specContract]
    rw [hzero] at hfun
    have hlt : Real.exp (-(1 / 10000 : ℝ)) < 1 := Real.exp_lt_one_iff.mpr (by norm_num)
    have hpos : 0 < (1 - Real.exp (-(1 / 10000 : ℝ))) * 10000 := by
      have : 0 < 1 - Real.exp (-(1 / 10000 : ℝ)) := by linarith
      positivity
    linarith [hfun, hpos]
  · rfl

/-!
## Error handling claims

`liegr.py` contains no `raise` statement, no `try`, and no error classes:
neither `liegr.__init__` nor `OrthoOptimizer.apply_grads` validates its
input.  `__init__` with `n < 2` silently yields `N = 0` with an empty
generator array; `apply_grads` feeds the Cayley denominator straight into
`tf.matrix_inverse` with no retry and no added regularization.
-/

/-- **C8 (amended)**: `apply_grads` performs no shape validation and no
singularity handling: it unconditionally computes
`var·(I - (lr/2)·grad)·(I + (lr/2)·grad)⁻¹` with no retry and no
regularization; when the Cayley denominator is not invertible, the
embedded inverse convention (`A⁻¹ = 0` for non-invertible `A`) makes the
update return the zero matrix — a silently degenerate value, not an
error.  (Shape mismatches are unrepresentable in the typed embedding; the
source has no shape check either.) -/
theorem apply_grads_silent_on_singular {k : ℕ} (lr : ℝ)
    (grad var : Matrix (Fin k) (Fin k) ℝ)
    (h : ¬ IsUnit (1 + (lr / 2) • grad).det) :
    apply_grads k lr grad var = 0 := by
  unfold apply_grads
  rw [Matrix.nonsing_inv_apply_not_isUnit _ h, Matrix.mul_zero, Matrix.mul_zero]

/-- Witness for **C8 (amended)** at the concrete singular input
`k = 1`, `lr = 2`, `grad = -1`, `var = I`. -/
theorem apply_grads_silent_on_singular_witness :
    ¬ IsUnit (1 + ((2 : ℝ) / 2) • (-1 : Matrix (Fin 1) (Fin 1) ℝ)).det
    ∧ apply_grads 1 2 (-1) (1 : Matrix (Fin 1) (Fin 1) ℝ) = 0 := by
  have hzero : (1 + ((2 : ℝ) / 2) • (-1 : Matrix (Fin 1) (Fin 1) ℝ)) = 0 := by
    norm_num
  have hdet : ¬ IsUnit (1 + ((2 : ℝ) / 2) • (-1 : Matrix (Fin 1) (Fin 1) ℝ)).det := by
    rw [hzero, Matrix.det_zero ⟨0⟩]
    simp
  exact ⟨hdet, apply_grads_silent_on_singular 2 (-1) 1 hdet⟩

/-- Counterexample to **C8** as stated: the claim says the update "fails
with a SingularUpdate error when the Cayley denominator is non-invertible
… after one bounded retry with increased regularization; in all such cases
the error is surfaced explicitly rather than absorbed".  At the concrete
input `k = 1`, `lr = 2`, `grad = -1`, `var = I` the denominator
`I + (lr/2)·grad` is exactly singular, yet `apply_grads` — which contains
no validation, no retry, no regularization and no error path — produces a
value (the zero matrix under the embedding's inverse convention) instead
of surfacing any error. -/
theorem apply_grads_error_counterexample :
    ¬ IsUnit (1 + ((2 : ℝ) / 2) • (-1 : Matrix (Fin 1) (Fin 1) ℝ)).det
    ∧ apply_grads 1 2 (-1) (1 : Matrix (Fin 1) (Fin 1) ℝ) = 0 := by
  have hzero : (1 + ((2 : ℝ) / 2) • (-1 : Matrix (Fin 1) (Fin 1) ℝ)) = 0 := by
    norm_num
  have hdet : ¬ IsUnit (1 + ((2 : ℝ) / 2) • (-1 : Matrix (Fin 1) (Fin 1) ℝ)).det := by
    rw [hzero, Matrix.det_zero ⟨0⟩]
    simp
  refine ⟨hdet, ?_⟩
  unfold apply_grads
  rw [Matrix.nonsing_inv_apply_not_isUnit _ hdet, Matrix.mul_zero, Matrix.mul_zero]

/-- **C9 (amended)**: constructing the basis with `n < 2` does not fail —
`liegr.__init__` has no dimension check and no error path — and silently
produces the degenerate empty basis: `N = n(n-1)/2 = 0`, so there are no
generators at all. -/
theorem init_small_n_degenerate (n : ℕ) (h : n < 2) :
    Nalg n = 0 ∧ ∀ I : Fin (Nalg n), False := by
  have h0 : Nalg n = 0 := by
    interval_cases n <;> rfl
  refine ⟨h0, fun I => ?_⟩
  have hI := I.isLt
  omega

/-- Witness for **C9 (amended)** at the concrete input `n = 1`. -/
theorem init_small_n_degenerate_witness :
    Nalg 1 = 0 ∧ ∀ I : Fin (Nalg 1), False :=
  init_small_n_degenerate 1 (by norm_num)

/-- Counterexample to **C9** as stated: the claim says construction with
`n < 2` "fails with an InvalidDimension error … rather than silently
producing a degenerate basis".  The source's `__init__` contains no
`raise` at all; the embedded construction is total, and at the concrete
inputs `n = 1` and `n = 0` it succeeds with `N = 0` — exactly the
silently degenerate basis the claim rules out. -/
theorem init_small_n_counterexample : Nalg 1 = 0 ∧ Nalg 0 = 0 :=
  ⟨rfl, rfl⟩

end LieGr
